import Mathlib

/-!
Shallow embedding of the raster image to toolpath pipeline of
src/raster_converter.py, together with theorems settling the
specification claims about it.

Numeric model: the floating point cell values are modelled as exact
rational numbers; the Python built in round (nearest integer, ties to
even) is pyRound below.  numpy arrays are modelled as total functions
from indices to rationals together with explicit dimension arguments;
writing one cell is a pointwise functional update.  Loops over an index
range are folds over List.range, visiting indices in increasing order
exactly as the Python for loops do.
-/

namespace RasterConverter

/-- Three axis pixel buffer, indexed (row, column, channel). -/
abbrev Buf3 := Nat → Nat → Nat → ℚ

/-- Two axis mask, indexed (row, column). -/
abbrev Buf2 := Nat → Nat → ℚ

/-- One row of a mask. -/
abbrev Row := Nat → ℚ

/-- Python round on an exact rational: nearest integer, ties to even. -/
def pyRound (q : ℚ) : ℤ :=
  if q - ⌊q⌋ < 1/2 then ⌊q⌋
  else if 1/2 < q - ⌊q⌋ then ⌊q⌋ + 1
  else if 2 ∣ ⌊q⌋ then ⌊q⌋ else ⌊q⌋ + 1

theorem abs_sub_pyRound_le_half (q : ℚ) : |q - (pyRound q : ℚ)| ≤ 1/2 := by
  have hf1 : ((⌊q⌋ : ℤ) : ℚ) ≤ q := Int.floor_le q
  have hf2 : q < ((⌊q⌋ : ℤ) : ℚ) + 1 := Int.lt_floor_add_one q
  unfold pyRound
  split_ifs with ha hb hc
  · rw [abs_le]; constructor <;> push_cast <;> linarith
  · rw [abs_le]; constructor <;> push_cast <;> linarith
  · rw [not_lt] at ha hb
    rw [abs_le]; constructor <;> push_cast <;> linarith
  · rw [not_lt] at ha hb
    rw [abs_le]; constructor <;> push_cast <;> linarith

theorem pyRound_mem01 (q : ℚ) (h1 : -(1/3) ≤ q) (h2 : q ≤ 4/3) :
    pyRound q = 0 ∨ pyRound q = 1 := by
  have hf1 : ((⌊q⌋ : ℤ) : ℚ) ≤ q := Int.floor_le q
  have hf2 : q < ((⌊q⌋ : ℤ) : ℚ) + 1 := Int.lt_floor_add_one q
  have htri : ⌊q⌋ = -1 ∨ ⌊q⌋ = 0 ∨ ⌊q⌋ = 1 := by
    have hlo : ((-2 : ℤ) : ℚ) < (⌊q⌋ : ℚ) := by push_cast; linarith
    have hhi : ((⌊q⌋ : ℤ) : ℚ) < ((2 : ℤ) : ℚ) := by push_cast; linarith
    have hlo2 : (-2 : ℤ) < ⌊q⌋ := by exact_mod_cast hlo
    have hhi2 : ⌊q⌋ < (2 : ℤ) := by exact_mod_cast hhi
    omega
  unfold pyRound
  rcases htri with h | h | h <;> rw [h] at hf1 hf2 ⊢
  · split_ifs with ha hb hc
    · exfalso; push_cast at ha; push_cast at hf1; linarith
    · left; norm_num
    · exact absurd hc (by decide)
    · left; norm_num
  · split_ifs with ha hb hc
    · left; rfl
    · right; norm_num
    · left; rfl
    · right; norm_num
  · split_ifs with ha hb hc
    · right; rfl
    · exfalso; push_cast at hb; push_cast at h2; linarith
    · right; rfl
    · exfalso; rw [not_lt] at ha; push_cast at ha; linarith

/-- Pointwise write of one cell of a three axis buffer. -/
def upd3 (b : Buf3) (i j c : Nat) (v : ℚ) : Buf3 :=
  fun x y z => if x = i ∧ y = j ∧ z = c then v else b x y z

/-- Guarded accumulate: when the guard holds, add v to cell (i, j, c),
reading the current value of that cell; otherwise leave the buffer
unchanged.  This is the compound assignment of the source under its
bounds test. -/
def addAt (b : Buf3) (g : Prop) [Decidable g] (i j c : Nat) (v : ℚ) : Buf3 :=
  if g then upd3 b i j c (b i j c + v) else b

/-- Body of the three nested loops of floyd_steinberg for one cell
(i = row, j = column, c = channel): round the cell, store the rounded
value, and diffuse the rounding error to the guarded neighbours with
weights 7/24, 5/24, 1/24 and 3/24, in the order of the source. -/
def fsCell (lx ly : Nat) (b : Buf3) (i j c : Nat) : Buf3 :=
  let v := b i j c
  let rounded : ℚ := (pyRound v : ℚ)
  let err := v - rounded
  let b0 := upd3 b i j c rounded
  let b1 := addAt b0 (i < lx - 1) (i+1) j c (7/24 * err)
  let b2 := addAt b1 (j < ly - 1) i (j+1) c (5/24 * err)
  let b3 := addAt b2 (j < ly - 1 ∧ 0 < i) (i-1) (j+1) c (1/24 * err)
  addAt b3 (j < ly - 1 ∧ i < lx - 1) (i+1) (j+1) c (3/24 * err)

theorem upd3_at (b : Buf3) (i j c : Nat) (v : ℚ) : upd3 b i j c v i j c = v := by
  simp [upd3]

theorem upd3_ne (b : Buf3) {i j c x y z : Nat} (v : ℚ)
    (h : ¬(x = i ∧ y = j ∧ z = c)) : upd3 b i j c v x y z = b x y z := by
  simp only [upd3]; rw [if_neg h]

theorem addAt_at (b : Buf3) (g : Prop) [Decidable g] {i j c : Nat} (v : ℚ)
    (hg : g) : addAt b g i j c v i j c = b i j c + v := by
  rw [addAt, if_pos hg, upd3_at]

theorem addAt_out (b : Buf3) (g : Prop) [Decidable g] {i j c x y z : Nat} (v : ℚ)
    (h : ¬(x = i ∧ y = j ∧ z = c ∧ g)) : addAt b g i j c v x y z = b x y z := by
  rw [addAt]
  split_ifs with hgg
  · exact upd3_ne _ _ (fun hc => h ⟨hc.1, hc.2.1, hc.2.2, hgg⟩)
  · rfl

/-- Error diffusion dithering pass of the source: outer loop over
columns j, inner loop over rows i, innermost loop over channels c. -/
def floyd_steinberg (lx ly lc : Nat) (image : Buf3) : Buf3 :=
  (List.range ly).foldl
    (fun b j => (List.range lx).foldl
      (fun b i => (List.range lc).foldl (fun b c => fsCell lx ly b i j c) b) b)
    image

/-- Quantisation error of one cell value. -/
def qerr (v : ℚ) : ℚ := v - (pyRound v : ℚ)

theorem fsCell_self (lx ly : Nat) (b : Buf3) (i j c : Nat) :
    fsCell lx ly b i j c i j c = (pyRound (b i j c) : ℚ) := by
  simp only [fsCell]
  rw [addAt_out _ _ _ (by omega), addAt_out _ _ _ (by omega),
    addAt_out _ _ _ (by omega), addAt_out _ _ _ (by omega), upd3_at]

theorem fsCell_at_right (lx ly : Nat) (b : Buf3) (i j c : Nat) (hg : i < lx - 1) :
    fsCell lx ly b i j c (i+1) j c = b (i+1) j c + 7/24 * qerr (b i j c) := by
  simp only [fsCell, qerr]
  rw [addAt_out _ _ _ (by omega), addAt_out _ _ _ (by omega),
    addAt_out _ _ _ (by omega), addAt_at _ _ _ hg, upd3_ne _ _ (by omega)]

theorem fsCell_at_dcol (lx ly : Nat) (b : Buf3) (i j c : Nat) (hg : j < ly - 1) :
    fsCell lx ly b i j c i (j+1) c = b i (j+1) c + 5/24 * qerr (b i j c) := by
  simp only [fsCell, qerr]
  rw [addAt_out _ _ _ (by omega), addAt_out _ _ _ (by omega),
    addAt_at _ _ _ hg, addAt_out _ _ _ (by omega), upd3_ne _ _ (by omega)]

theorem fsCell_at_dcol_urow (lx ly : Nat) (b : Buf3) (i j c : Nat)
    (hg2 : j < ly - 1) (hg3 : 0 < i) :
    fsCell lx ly b i j c (i-1) (j+1) c = b (i-1) (j+1) c + 1/24 * qerr (b i j c) := by
  simp only [fsCell, qerr]
  rw [addAt_out _ _ _ (by omega), addAt_at _ _ _ ⟨hg2, hg3⟩,
    addAt_out _ _ _ (by omega), addAt_out _ _ _ (by omega), upd3_ne _ _ (by omega)]

theorem fsCell_at_dcol_drow (lx ly : Nat) (b : Buf3) (i j c : Nat)
    (hg2 : j < ly - 1) (hg1 : i < lx - 1) :
    fsCell lx ly b i j c (i+1) (j+1) c = b (i+1) (j+1) c + 3/24 * qerr (b i j c) := by
  simp only [fsCell, qerr]
  rw [addAt_at _ _ _ ⟨hg2, hg1⟩, addAt_out _ _ _ (by omega),
    addAt_out _ _ _ (by omega), addAt_out _ _ _ (by omega), upd3_ne _ _ (by omega)]

theorem fsCell_other (lx ly : Nat) (b : Buf3) (i j c x y z : Nat)
    (h0 : ¬(x = i ∧ y = j ∧ z = c))
    (h1 : ¬(x = i + 1 ∧ y = j ∧ z = c ∧ i < lx - 1))
    (h2 : ¬(x = i ∧ y = j + 1 ∧ z = c ∧ j < ly - 1))
    (h3 : ¬(x = i - 1 ∧ y = j + 1 ∧ z = c ∧ j < ly - 1 ∧ 0 < i))
    (h4 : ¬(x = i + 1 ∧ y = j + 1 ∧ z = c ∧ j < ly - 1 ∧ i < lx - 1)) :
    fsCell lx ly b i j c x y z = b x y z := by
  simp only [fsCell]
  rw [addAt_out _ _ _ (fun hc => h4 ⟨hc.1, hc.2.1, hc.2.2.1, hc.2.2.2⟩),
    addAt_out _ _ _ (fun hc => h3 ⟨hc.1, hc.2.1, hc.2.2.1, hc.2.2.2⟩),
    addAt_out _ _ _ h2, addAt_out _ _ _ h1, upd3_ne _ _ h0]

/-- Example buffer used to instantiate theorems with hypotheses. -/
def exB : Buf3 := fun i j _ => if i = 1 ∧ j = 0 then 1/3 else 0

/-- C3: when the ditherer processes an interior cell (row i with
0 < i < H-1, column j with j < W-1) holding value v at quantisation
time, it adds exactly (7/24)(v - round v) to cell (i+1, j),
(5/24)(v - round v) to (i, j+1), (1/24)(v - round v) to (i-1, j+1) and
(3/24)(v - round v) to (i+1, j+1); the four propagated contributions
sum to (16/24)(v - round v), the remaining 8/24 of the quantisation
error being discarded. -/
theorem C3_interior_error_diffusion (lx ly : Nat) (b : Buf3) (i j c : Nat)
    (h1 : 0 < i) (h2 : i < lx - 1) (h3 : j < ly - 1) :
    fsCell lx ly b i j c (i+1) j c
        = b (i+1) j c + 7/24 * (b i j c - (pyRound (b i j c) : ℚ)) ∧
    fsCell lx ly b i j c i (j+1) c
        = b i (j+1) c + 5/24 * (b i j c - (pyRound (b i j c) : ℚ)) ∧
    fsCell lx ly b i j c (i-1) (j+1) c
        = b (i-1) (j+1) c + 1/24 * (b i j c - (pyRound (b i j c) : ℚ)) ∧
    fsCell lx ly b i j c (i+1) (j+1) c
        = b (i+1) (j+1) c + 3/24 * (b i j c - (pyRound (b i j c) : ℚ)) ∧
    7/24 * (b i j c - (pyRound (b i j c) : ℚ))
        + 5/24 * (b i j c - (pyRound (b i j c) : ℚ))
        + 1/24 * (b i j c - (pyRound (b i j c) : ℚ))
        + 3/24 * (b i j c - (pyRound (b i j c) : ℚ))
        = 16/24 * (b i j c - (pyRound (b i j c) : ℚ)) :=
  ⟨by simpa [qerr] using fsCell_at_right lx ly b i j c h2,
   by simpa [qerr] using fsCell_at_dcol lx ly b i j c h3,
   by simpa [qerr] using fsCell_at_dcol_urow lx ly b i j c h3 h1,
   by simpa [qerr] using fsCell_at_dcol_drow lx ly b i j c h3 h2,
   by ring⟩

/-- Closed instance of C3 at a concrete interior cell. -/
theorem C3_interior_error_diffusion_witness :
    fsCell 3 2 exB 1 0 0 (1+1) 0 0
        = exB (1+1) 0 0 + 7/24 * (exB 1 0 0 - (pyRound (exB 1 0 0) : ℚ)) ∧
    fsCell 3 2 exB 1 0 0 1 (0+1) 0
        = exB 1 (0+1) 0 + 5/24 * (exB 1 0 0 - (pyRound (exB 1 0 0) : ℚ)) ∧
    fsCell 3 2 exB 1 0 0 (1-1) (0+1) 0
        = exB (1-1) (0+1) 0 + 1/24 * (exB 1 0 0 - (pyRound (exB 1 0 0) : ℚ)) ∧
    fsCell 3 2 exB 1 0 0 (1+1) (0+1) 0
        = exB (1+1) (0+1) 0 + 3/24 * (exB 1 0 0 - (pyRound (exB 1 0 0) : ℚ)) ∧
    7/24 * (exB 1 0 0 - (pyRound (exB 1 0 0) : ℚ))
        + 5/24 * (exB 1 0 0 - (pyRound (exB 1 0 0) : ℚ))
        + 1/24 * (exB 1 0 0 - (pyRound (exB 1 0 0) : ℚ))
        + 3/24 * (exB 1 0 0 - (pyRound (exB 1 0 0) : ℚ))
        = 16/24 * (exB 1 0 0 - (pyRound (exB 1 0 0) : ℚ)) :=
  C3_interior_error_diffusion 3 2 exB 1 0 0 (by norm_num) (by norm_num) (by norm_num)

/-- Frontier order of the dithering loops: cell (i, j, c) has been
processed once its column j is before jD, or its row i is before iD
within column jD, or its channel c is before cD within cell (iD, jD). -/
def procAt (jD iD cD : Nat) (i j c : Nat) : Prop :=
  j < jD ∨ (j = jD ∧ (i < iD ∨ (i = iD ∧ c < cD)))

instance (jD iD cD i j c : Nat) : Decidable (procAt jD iD cD i j c) :=
  inferInstanceAs (Decidable (j < jD ∨ (j = jD ∧ (i < iD ∨ (i = iD ∧ c < cD)))))

/-- Total diffusion weight already received by cell (i, j, c) from its
processed senders at frontier (jD, iD, cD): the cell above in the same
column sends 7/24, and the three previous column neighbours send 5/24,
1/24 and 3/24, each present only when that sender exists in the grid. -/
def recvW (lx jD iD cD i j c : Nat) : ℚ :=
  (if 1 ≤ i ∧ procAt jD iD cD (i-1) j c then 7/24 else 0)
  + (if 1 ≤ j ∧ procAt jD iD cD i (j-1) c then 5/24 else 0)
  + (if 1 ≤ j ∧ i + 1 ≤ lx - 1 ∧ procAt jD iD cD (i+1) (j-1) c then 1/24 else 0)
  + (if 1 ≤ i ∧ 1 ≤ j ∧ procAt jD iD cD (i-1) (j-1) c then 3/24 else 0)

theorem recvW_nonneg (lx jD iD cD i j c : Nat) : 0 ≤ recvW lx jD iD cD i j c := by
  unfold recvW; split_ifs <;> norm_num

theorem recvW_le (lx jD iD cD i j c : Nat) : recvW lx jD iD cD i j c ≤ 16/24 := by
  unfold recvW; split_ifs <;> norm_num

theorem recvW_step_right (lx jD iD cD : Nat) :
    recvW lx jD iD (cD+1) (iD+1) jD cD = recvW lx jD iD cD (iD+1) jD cD + 7/24 := by
  unfold recvW procAt
  split_ifs <;> first | (exfalso; omega) | norm_num

theorem recvW_step_dcol (lx jD iD cD : Nat) :
    recvW lx jD iD (cD+1) iD (jD+1) cD = recvW lx jD iD cD iD (jD+1) cD + 5/24 := by
  unfold recvW procAt
  split_ifs <;> first | (exfalso; omega) | norm_num

set_option maxHeartbeats 1600000 in
theorem recvW_step_urow (lx jD iD cD : Nat) (h3 : 0 < iD) (hi : iD ≤ lx - 1) :
    recvW lx jD iD (cD+1) (iD-1) (jD+1) cD
      = recvW lx jD iD cD (iD-1) (jD+1) cD + 1/24 := by
  unfold recvW procAt
  split_ifs <;> first | (exfalso; omega) | norm_num

theorem recvW_step_drow (lx jD iD cD : Nat) :
    recvW lx jD iD (cD+1) (iD+1) (jD+1) cD
      = recvW lx jD iD cD (iD+1) (jD+1) cD + 3/24 := by
  unfold recvW procAt
  split_ifs <;> first | (exfalso; omega) | norm_num

theorem recvW_step_other (lx ly jD iD cD i j c : Nat) (hix : i < lx) (hjx : j < ly)
    (hn1 : ¬(iD + 1 = i ∧ jD = j ∧ cD = c ∧ iD < lx - 1))
    (hn2 : ¬(iD = i ∧ jD + 1 = j ∧ cD = c ∧ jD < ly - 1))
    (hn3 : ¬(iD - 1 = i ∧ jD + 1 = j ∧ cD = c ∧ jD < ly - 1 ∧ 0 < iD))
    (hn4 : ¬(iD + 1 = i ∧ jD + 1 = j ∧ cD = c ∧ jD < ly - 1 ∧ iD < lx - 1)) :
    recvW lx jD iD (cD+1) i j c = recvW lx jD iD cD i j c := by
  have k1 : (1 ≤ i ∧ procAt jD iD (cD+1) (i-1) j c)
      ↔ (1 ≤ i ∧ procAt jD iD cD (i-1) j c) := by
    unfold procAt; omega
  have k2 : (1 ≤ j ∧ procAt jD iD (cD+1) i (j-1) c)
      ↔ (1 ≤ j ∧ procAt jD iD cD i (j-1) c) := by
    unfold procAt; omega
  have k3 : (1 ≤ j ∧ i + 1 ≤ lx - 1 ∧ procAt jD iD (cD+1) (i+1) (j-1) c)
      ↔ (1 ≤ j ∧ i + 1 ≤ lx - 1 ∧ procAt jD iD cD (i+1) (j-1) c) := by
    unfold procAt; omega
  have k4 : (1 ≤ i ∧ 1 ≤ j ∧ procAt jD iD (cD+1) (i-1) (j-1) c)
      ↔ (1 ≤ i ∧ 1 ≤ j ∧ procAt jD iD cD (i-1) (j-1) c) := by
    unfold procAt; omega
  unfold recvW
  rw [if_congr k1 rfl rfl, if_congr k2 rfl rfl, if_congr k3 rfl rfl,
    if_congr k4 rfl rfl]

/-- Invariant of the dithering pass at frontier (jD, iD, cD): every
processed in grid cell is 0 or 1, and every unprocessed in grid cell
differs from its original value by at most half the diffusion weight it
has already received. -/
def DitherInv (lx ly lc : Nat) (orig b : Buf3) (jD iD cD : Nat) : Prop :=
  (∀ i j c, i < lx → j < ly → c < lc → procAt jD iD cD i j c →
    b i j c = 0 ∨ b i j c = 1) ∧
  (∀ i j c, i < lx → j < ly → c < lc → ¬ procAt jD iD cD i j c →
    |b i j c - orig i j c| ≤ recvW lx jD iD cD i j c / 2)

theorem dither_inv_step (lx ly lc : Nat) (orig b : Buf3)
    (horig : ∀ i j c, i < lx → j < ly → c < lc → 0 ≤ orig i j c ∧ orig i j c ≤ 1)
    (jD iD cD : Nat) (hj : jD < ly) (hi : iD < lx) (hc : cD < lc)
    (hInv : DitherInv lx ly lc orig b jD iD cD) :
    DitherInv lx ly lc orig (fsCell lx ly b iD jD cD) jD iD (cD + 1) := by
  obtain ⟨h01, hbd⟩ := hInv
  have hcur_np : ¬ procAt jD iD cD iD jD cD := by unfold procAt; omega
  have hcurb := hbd iD jD cD hi hj hc hcur_np
  have hrle : recvW lx jD iD cD iD jD cD ≤ 16/24 := recvW_le lx jD iD cD iD jD cD
  have horigc := horig iD jD cD hi hj hc
  have habs := abs_le.mp hcurb
  have hvlo : -(1/3) ≤ b iD jD cD := by
    have := habs.1; linarith
  have hvhi : b iD jD cD ≤ 4/3 := by
    have := habs.2; linarith
  have hrho := pyRound_mem01 (b iD jD cD) hvlo hvhi
  have herr : |qerr (b iD jD cD)| ≤ 1/2 := by
    simpa [qerr] using abs_sub_pyRound_le_half (b iD jD cD)
  constructor
  · -- processed cells are 0 or 1
    intro i j c hix hjx hcx hp
    by_cases hcurq : i = iD ∧ j = jD ∧ c = cD
    · obtain ⟨rfl, rfl, rfl⟩ := hcurq
      rw [fsCell_self]
      rcases hrho with h | h <;> rw [h] <;> simp
    · have hpOld : procAt jD iD cD i j c := by
        unfold procAt at hp ⊢; omega
      rw [fsCell_other lx ly b iD jD cD i j c hcurq
        (by rintro ⟨rfl, rfl, rfl, -⟩; unfold procAt at hpOld; omega)
        (by rintro ⟨rfl, rfl, rfl, -⟩; unfold procAt at hpOld; omega)
        (by rintro ⟨rfl, rfl, rfl, -⟩; unfold procAt at hpOld; omega)
        (by rintro ⟨rfl, rfl, rfl, -⟩; unfold procAt at hpOld; omega)]
      exact h01 i j c hix hjx hcx hpOld
  · -- unprocessed cells keep the weighted bound
    intro i j c hix hjx hcx hnp
    have hnpOld : ¬ procAt jD iD cD i j c := by
      unfold procAt at hnp ⊢; omega
    have hne_cur : ¬(i = iD ∧ j = jD ∧ c = cD) := by
      rintro ⟨rfl, rfl, rfl⟩; exact hnp (by unfold procAt; omega)
    have hbdo := hbd i j c hix hjx hcx hnpOld
    by_cases hT1 : iD + 1 = i ∧ jD = j ∧ cD = c ∧ iD < lx - 1
    · obtain ⟨rfl, rfl, rfl, hg⟩ := hT1
      rw [fsCell_at_right lx ly b iD jD cD hg]
      have hbdo2 := hbdo
      have hrw := recvW_step_right lx jD iD cD
      calc |b (iD+1) jD cD + 7/24 * qerr (b iD jD cD) - orig (iD+1) jD cD|
          = |(b (iD+1) jD cD - orig (iD+1) jD cD) + 7/24 * qerr (b iD jD cD)| := by
            rw [show b (iD+1) jD cD + 7/24 * qerr (b iD jD cD) - orig (iD+1) jD cD
              = (b (iD+1) jD cD - orig (iD+1) jD cD) + 7/24 * qerr (b iD jD cD) from by
                ring]
        _ ≤ |b (iD+1) jD cD - orig (iD+1) jD cD| + |7/24 * qerr (b iD jD cD)| :=
            abs_add _ _
        _ ≤ recvW lx jD iD cD (iD+1) jD cD / 2 + 7/24 * (1/2) := by
            rw [show |7/24 * qerr (b iD jD cD)| = 7/24 * |qerr (b iD jD cD)| from by
              rw [abs_mul]; norm_num]
            exact add_le_add hbdo2 (by linarith [herr])
        _ = recvW lx jD iD (cD+1) (iD+1) jD cD / 2 := by rw [hrw]; ring
    · by_cases hT2 : iD = i ∧ jD + 1 = j ∧ cD = c ∧ jD < ly - 1
      · obtain ⟨rfl, rfl, rfl, hg⟩ := hT2
        rw [fsCell_at_dcol lx ly b iD jD cD hg]
        have hbdo2 := hbdo
        have hrw := recvW_step_dcol lx jD iD cD
        calc |b iD (jD+1) cD + 5/24 * qerr (b iD jD cD) - orig iD (jD+1) cD|
            = |(b iD (jD+1) cD - orig iD (jD+1) cD) + 5/24 * qerr (b iD jD cD)| := by
              rw [show b iD (jD+1) cD + 5/24 * qerr (b iD jD cD) - orig iD (jD+1) cD
                = (b iD (jD+1) cD - orig iD (jD+1) cD) + 5/24 * qerr (b iD jD cD) from by
                  ring]
          _ ≤ |b iD (jD+1) cD - orig iD (jD+1) cD| + |5/24 * qerr (b iD jD cD)| :=
              abs_add _ _
          _ ≤ recvW lx jD iD cD iD (jD+1) cD / 2 + 5/24 * (1/2) := by
              rw [show |5/24 * qerr (b iD jD cD)| = 5/24 * |qerr (b iD jD cD)| from by
                rw [abs_mul]; norm_num]
              exact add_le_add hbdo2 (by linarith [herr])
          _ = recvW lx jD iD (cD+1) iD (jD+1) cD / 2 := by rw [hrw]; ring
      · by_cases hT3 : iD - 1 = i ∧ jD + 1 = j ∧ cD = c ∧ jD < ly - 1 ∧ 0 < iD
        · obtain ⟨rfl, rfl, rfl, hg2, hg3⟩ := hT3
          rw [fsCell_at_dcol_urow lx ly b iD jD cD hg2 hg3]
          have hbdo2 := hbdo
          have hrw := recvW_step_urow lx jD iD cD hg3 (by omega)
          calc |b (iD-1) (jD+1) cD + 1/24 * qerr (b iD jD cD) - orig (iD-1) (jD+1) cD|
              = |(b (iD-1) (jD+1) cD - orig (iD-1) (jD+1) cD)
                  + 1/24 * qerr (b iD jD cD)| := by
                rw [show b (iD-1) (jD+1) cD + 1/24 * qerr (b iD jD cD)
                    - orig (iD-1) (jD+1) cD
                  = (b (iD-1) (jD+1) cD - orig (iD-1) (jD+1) cD)
                    + 1/24 * qerr (b iD jD cD) from by ring]
            _ ≤ |b (iD-1) (jD+1) cD - orig (iD-1) (jD+1) cD|
                  + |1/24 * qerr (b iD jD cD)| := abs_add _ _
            _ ≤ recvW lx jD iD cD (iD-1) (jD+1) cD / 2 + 1/24 * (1/2) := by
                rw [show |1/24 * qerr (b iD jD cD)| = 1/24 * |qerr (b iD jD cD)| from by
                  rw [abs_mul]; norm_num]
                exact add_le_add hbdo2 (by linarith [herr])
            _ = recvW lx jD iD (cD+1) (iD-1) (jD+1) cD / 2 := by rw [hrw]; ring
        · by_cases hT4 : iD + 1 = i ∧ jD + 1 = j ∧ cD = c ∧ jD < ly - 1 ∧ iD < lx - 1
          · obtain ⟨rfl, rfl, rfl, hg2, hg1⟩ := hT4
            rw [fsCell_at_dcol_drow lx ly b iD jD cD hg2 hg1]
            have hbdo2 := hbdo
            have hrw := recvW_step_drow lx jD iD cD
            calc |b (iD+1) (jD+1) cD + 3/24 * qerr (b iD jD cD) - orig (iD+1) (jD+1) cD|
                = |(b (iD+1) (jD+1) cD - orig (iD+1) (jD+1) cD)
                    + 3/24 * qerr (b iD jD cD)| := by
                  rw [show b (iD+1) (jD+1) cD + 3/24 * qerr (b iD jD cD)
                      - orig (iD+1) (jD+1) cD
                    = (b (iD+1) (jD+1) cD - orig (iD+1) (jD+1) cD)
                      + 3/24 * qerr (b iD jD cD) from by ring]
              _ ≤ |b (iD+1) (jD+1) cD - orig (iD+1) (jD+1) cD|
                    + |3/24 * qerr (b iD jD cD)| := abs_add _ _
              _ ≤ recvW lx jD iD cD (iD+1) (jD+1) cD / 2 + 3/24 * (1/2) := by
                  rw [show |3/24 * qerr (b iD jD cD)| = 3/24 * |qerr (b iD jD cD)| from by
                    rw [abs_mul]; norm_num]
                  exact add_le_add hbdo2 (by linarith [herr])
              _ = recvW lx jD iD (cD+1) (iD+1) (jD+1) cD / 2 := by rw [hrw]; ring
          · -- not a diffusion target: the cell and its received weight are unchanged
            rw [fsCell_other lx ly b iD jD cD i j c
              (fun hq => hne_cur hq)
              (fun hq => hT1 ⟨hq.1.symm, hq.2.1.symm, hq.2.2.1.symm, hq.2.2.2⟩)
              (fun hq => hT2 ⟨hq.1.symm, hq.2.1.symm, hq.2.2.1.symm, hq.2.2.2⟩)
              (fun hq => hT3 ⟨hq.1.symm, hq.2.1.symm, hq.2.2.1.symm, hq.2.2.2.1, hq.2.2.2.2⟩)
              (fun hq => hT4 ⟨hq.1.symm, hq.2.1.symm, hq.2.2.1.symm, hq.2.2.2.1, hq.2.2.2.2⟩)]
            have hrw0 := recvW_step_other lx ly jD iD cD i j c hix hjx hT1 hT2 hT3 hT4
            rw [hrw0]
            exact hbdo

theorem foldl_range_succ {α : Type} (f : α → Nat → α) (a : α) (n : Nat) :
    (List.range (n+1)).foldl f a = f ((List.range n).foldl f a) n := by
  rw [List.range_succ, List.foldl_append]
  rfl

theorem recvW_chan_done (lx jD iD lc i j c : Nat) (hcx : c < lc) :
    recvW lx jD (iD+1) 0 i j c = recvW lx jD iD lc i j c := by
  have k1 : (1 ≤ i ∧ procAt jD (iD+1) 0 (i-1) j c)
      ↔ (1 ≤ i ∧ procAt jD iD lc (i-1) j c) := by
    unfold procAt; omega
  have k2 : (1 ≤ j ∧ procAt jD (iD+1) 0 i (j-1) c)
      ↔ (1 ≤ j ∧ procAt jD iD lc i (j-1) c) := by
    unfold procAt; omega
  have k3 : (1 ≤ j ∧ i + 1 ≤ lx - 1 ∧ procAt jD (iD+1) 0 (i+1) (j-1) c)
      ↔ (1 ≤ j ∧ i + 1 ≤ lx - 1 ∧ procAt jD iD lc (i+1) (j-1) c) := by
    unfold procAt; omega
  have k4 : (1 ≤ i ∧ 1 ≤ j ∧ procAt jD (iD+1) 0 (i-1) (j-1) c)
      ↔ (1 ≤ i ∧ 1 ≤ j ∧ procAt jD iD lc (i-1) (j-1) c) := by
    unfold procAt; omega
  unfold recvW
  rw [if_congr k1 rfl rfl, if_congr k2 rfl rfl, if_congr k3 rfl rfl,
    if_congr k4 rfl rfl]

theorem recvW_col_done (lx jD i j c : Nat) (hix : i < lx) :
    recvW lx (jD+1) 0 0 i j c = recvW lx jD lx 0 i j c := by
  have k1 : (1 ≤ i ∧ procAt (jD+1) 0 0 (i-1) j c)
      ↔ (1 ≤ i ∧ procAt jD lx 0 (i-1) j c) := by
    unfold procAt; omega
  have k2 : (1 ≤ j ∧ procAt (jD+1) 0 0 i (j-1) c)
      ↔ (1 ≤ j ∧ procAt jD lx 0 i (j-1) c) := by
    unfold procAt; omega
  have k3 : (1 ≤ j ∧ i + 1 ≤ lx - 1 ∧ procAt (jD+1) 0 0 (i+1) (j-1) c)
      ↔ (1 ≤ j ∧ i + 1 ≤ lx - 1 ∧ procAt jD lx 0 (i+1) (j-1) c) := by
    unfold procAt; omega
  have k4 : (1 ≤ i ∧ 1 ≤ j ∧ procAt (jD+1) 0 0 (i-1) (j-1) c)
      ↔ (1 ≤ i ∧ 1 ≤ j ∧ procAt jD lx 0 (i-1) (j-1) c) := by
    unfold procAt; omega
  unfold recvW
  rw [if_congr k1 rfl rfl, if_congr k2 rfl rfl, if_congr k3 rfl rfl,
    if_congr k4 rfl rfl]

theorem dither_inv_chan_done (lx ly lc : Nat) (orig b : Buf3) (jD iD : Nat)
    (h : DitherInv lx ly lc orig b jD iD lc) :
    DitherInv lx ly lc orig b jD (iD+1) 0 := by
  obtain ⟨h01, hbd⟩ := h
  constructor
  · intro i j c hix hjx hcx hp
    exact h01 i j c hix hjx hcx (by unfold procAt at hp ⊢; omega)
  · intro i j c hix hjx hcx hnp
    have hnp2 : ¬ procAt jD iD lc i j c := by unfold procAt at hnp ⊢; omega
    rw [recvW_chan_done lx jD iD lc i j c hcx]
    exact hbd i j c hix hjx hcx hnp2

theorem dither_inv_col_done (lx ly lc : Nat) (orig b : Buf3) (jD : Nat)
    (h : DitherInv lx ly lc orig b jD lx 0) :
    DitherInv lx ly lc orig b (jD+1) 0 0 := by
  obtain ⟨h01, hbd⟩ := h
  constructor
  · intro i j c hix hjx hcx hp
    exact h01 i j c hix hjx hcx (by unfold procAt at hp ⊢; omega)
  · intro i j c hix hjx hcx hnp
    have hnp2 : ¬ procAt jD lx 0 i j c := by unfold procAt at hnp ⊢; omega
    rw [recvW_col_done lx jD i j c hix]
    exact hbd i j c hix hjx hcx hnp2

theorem dither_chan_loop (lx ly lc : Nat) (orig b : Buf3)
    (horig : ∀ i j c, i < lx → j < ly → c < lc → 0 ≤ orig i j c ∧ orig i j c ≤ 1)
    (jD iD : Nat) (hj : jD < ly) (hi : iD < lx)
    (hInv : DitherInv lx ly lc orig b jD iD 0) :
    ∀ k, k ≤ lc → DitherInv lx ly lc orig
      ((List.range k).foldl (fun bb c => fsCell lx ly bb iD jD c) b) jD iD k := by
  intro k
  induction k with
  | zero => intro _; simpa using hInv
  | succ n ih =>
    intro hk
    rw [foldl_range_succ]
    exact dither_inv_step lx ly lc orig _ horig jD iD n hj hi (by omega) (ih (by omega))

theorem dither_row_loop (lx ly lc : Nat) (orig b : Buf3)
    (horig : ∀ i j c, i < lx → j < ly → c < lc → 0 ≤ orig i j c ∧ orig i j c ≤ 1)
    (jD : Nat) (hj : jD < ly)
    (hInv : DitherInv lx ly lc orig b jD 0 0) :
    ∀ m, m ≤ lx → DitherInv lx ly lc orig
      ((List.range m).foldl
        (fun bb i => (List.range lc).foldl (fun bb2 c => fsCell lx ly bb2 i jD c) bb) b)
      jD m 0 := by
  intro m
  induction m with
  | zero => intro _; simpa using hInv
  | succ n ih =>
    intro hm
    rw [foldl_range_succ]
    exact dither_inv_chan_done lx ly lc orig _ jD n
      (dither_chan_loop lx ly lc orig _ horig jD n hj (by omega) (ih (by omega)) lc le_rfl)

theorem dither_col_loop (lx ly lc : Nat) (orig b : Buf3)
    (horig : ∀ i j c, i < lx → j < ly → c < lc → 0 ≤ orig i j c ∧ orig i j c ≤ 1)
    (hInv : DitherInv lx ly lc orig b 0 0 0) :
    ∀ p, p ≤ ly → DitherInv lx ly lc orig
      ((List.range p).foldl
        (fun bb j => (List.range lx).foldl
          (fun bb2 i => (List.range lc).foldl (fun bb3 c => fsCell lx ly bb3 i j c) bb2) bb)
        b)
      p 0 0 := by
  intro p
  induction p with
  | zero => intro _; simpa using hInv
  | succ n ih =>
    intro hp
    rw [foldl_range_succ]
    exact dither_inv_col_done lx ly lc orig _ n
      (dither_row_loop lx ly lc orig _ horig n (by omega) (ih (by omega)) lx le_rfl)

theorem dither_inv_base (lx ly lc : Nat) (orig : Buf3) :
    DitherInv lx ly lc orig orig 0 0 0 := by
  constructor
  · intro i j c _ _ _ hp
    exfalso; unfold procAt at hp; omega
  · intro i j c _ _ _ _
    simp only [sub_self, abs_zero]
    have := recvW_nonneg lx 0 0 0 i j c
    linarith

/-- C2: for every input pixel buffer whose values lie in [0, 1], after
floyd_steinberg runs every in grid cell of the buffer is exactly 0 or
exactly 1. -/
theorem C2_dither_binarises (lx ly lc : Nat) (image : Buf3)
    (h01 : ∀ i j c, i < lx → j < ly → c < lc → 0 ≤ image i j c ∧ image i j c ≤ 1) :
    ∀ i j c, i < lx → j < ly → c < lc →
      floyd_steinberg lx ly lc image i j c = 0
        ∨ floyd_steinberg lx ly lc image i j c = 1 := by
  intro i j c hix hjx hcx
  have hfin := dither_col_loop lx ly lc image image h01
    (dither_inv_base lx ly lc image) ly le_rfl
  exact hfin.1 i j c hix hjx hcx (by unfold procAt; omega)

/-- Closed instance of C2 on a concrete one cell buffer. -/
theorem C2_dither_binarises_witness :
    floyd_steinberg 1 1 1 (fun _ _ _ => 1/2) 0 0 0 = 0
      ∨ floyd_steinberg 1 1 1 (fun _ _ _ => 1/2) 0 0 0 = 1 :=
  C2_dither_binarises 1 1 1 (fun _ _ _ => 1/2)
    (fun _ _ _ _ _ _ => by norm_num) 0 0 0 (by norm_num) (by norm_num) (by norm_num)

/-- Pointwise write of one cell of a row. -/
def updRow (a : Row) (k : Nat) (v : ℚ) : Row := fun m => if m = k then v else a m

/-- Body of the inner loop of reduce_by_row at column j.  cur is the
current cell; a cell equal to 1 either opens a run (point records the
run start) or extends the open run, incrementing the cell at the run
start and zeroing the current cell; any other value closes the run. -/
def reduceRowStep (s : Row × Option Nat) (j : Nat) : Row × Option Nat :=
  let a := s.1
  let cur := a j
  if cur = 1 then
    match s.2 with
    | none => (a, some j)
    | some p => (updRow (updRow a p (a p + 1)) j 0, some p)
  else (a, none)

/-- One row of reduce_by_row: fold of the inner loop over the columns
of a width w row, starting with no open run. -/
def reduceRow (w : Nat) (r : Row) : Row :=
  ((List.range w).foldl reduceRowStep (r, none)).1

/-- reduce_by_row of the source.  The source first copies the array
(new_arr = arr.copy()) so the returned array is a fresh one; point is
reset at the start of each row and all writes of row i stay within row
i, so the pass factors through the rows. -/
def reduce_by_row (h w : Nat) (m : Buf2) : Buf2 :=
  fun i => if i < h then reduceRow w (m i) else m i

/-- Effect of calling reduce_by_row on the caller: the source builds
its result in a copy (new_arr = arr.copy()) and only ever writes to the
copy, so the call returns the pair (returned array, caller array after
the call), the second component being the unchanged input. -/
def reduce_by_row_call (h w : Nat) (m : Buf2) : Buf2 × Buf2 :=
  (reduce_by_row h w m, m)

theorem updRow_at (a : Row) (k : Nat) (v : ℚ) : updRow a k v k = v := by
  simp [updRow]

theorem updRow_ne (a : Row) {k m : Nat} (v : ℚ) (h : m ≠ k) :
    updRow a k v m = a m := by
  simp only [updRow]; rw [if_neg h]

/-- Length of the run of consecutive ones starting at k, within width w. -/
def runLen (w : Nat) (r : Row) (k : Nat) : Nat :=
  if h : k < w ∧ r k = 1 then runLen w r (k+1) + 1 else 0
termination_by w - k
decreasing_by omega

/-- A run start: the cell is 1 and is not preceded by a 1. -/
def runstart (r : Row) (k : Nat) : Prop := r k = 1 ∧ (k = 0 ∨ r (k-1) ≠ 1)

instance (r : Row) (k : Nat) : Decidable (runstart r k) :=
  inferInstanceAs (Decidable (r k = 1 ∧ (k = 0 ∨ r (k-1) ≠ 1)))

theorem runLen_succ (w : Nat) (r : Row) (k : Nat) (hk : k < w) (h1 : r k = 1) :
    runLen w r k = runLen w r (k+1) + 1 := by
  rw [runLen, dif_pos ⟨hk, h1⟩]

theorem runLen_zero (w : Nat) (r : Row) (k : Nat) (h : ¬(k < w ∧ r k = 1)) :
    runLen w r k = 0 := by
  rw [runLen, dif_neg h]

theorem runLen_le (w : Nat) (r : Row) (k : Nat) : runLen w r k ≤ w - k := by
  by_cases h : k < w ∧ r k = 1
  · rw [runLen_succ w r k h.1 h.2]
    have := runLen_le w r (k+1)
    omega
  · rw [runLen_zero w r k h]
    omega
termination_by w - k
decreasing_by omega

theorem runLen_pos (w : Nat) (r : Row) (k : Nat) (hk : k < w) (h1 : r k = 1) :
    1 ≤ runLen w r k := by
  rw [runLen_succ w r k hk h1]; omega

theorem runLen_mem (w : Nat) (r : Row) :
    ∀ d k, d < runLen w r k → r (k + d) = 1 ∧ k + d < w := by
  intro d
  induction d with
  | zero =>
    intro k hd
    by_cases h : k < w ∧ r k = 1
    · simpa using ⟨h.2, h.1⟩
    · rw [runLen_zero w r k h] at hd; omega
  | succ n ih =>
    intro k hd
    by_cases h : k < w ∧ r k = 1
    · rw [runLen_succ w r k h.1 h.2] at hd
      have := ih (k+1) (by omega)
      constructor
      · rw [show k + (n+1) = (k+1) + n by omega]; exact this.1
      · omega
    · rw [runLen_zero w r k h] at hd; omega

theorem runLen_ge (w : Nat) (r : Row) :
    ∀ t k, (∀ m, k ≤ m → m < k + t → r m = 1) → k + t ≤ w → t ≤ runLen w r k := by
  intro t
  induction t with
  | zero => intro k _ _; omega
  | succ n ih =>
    intro k hones hw
    have h1 : r k = 1 := hones k le_rfl (by omega)
    rw [runLen_succ w r k (by omega) h1]
    have := ih (k+1) (fun m hm1 hm2 => hones m (by omega) (by omega)) (by omega)
    omega

/-- State of the row pass after the first n columns: the tail is
untouched, the open run register points at the start of the run of
ones still open at column n, and every processed cell holds the length
of its (possibly clipped at n) run when it is a run start and 0
otherwise. -/
def RowInv (w : Nat) (r : Row) (n : Nat) (s : Row × Option Nat) : Prop :=
  (∀ k, n ≤ k → s.1 k = r k) ∧
  (s.2 = none ↔ (n = 0 ∨ r (n-1) ≠ 1)) ∧
  (∀ p, s.2 = some p → p < n ∧ (p = 0 ∨ r (p-1) ≠ 1) ∧ ∀ m, p ≤ m → m < n → r m = 1) ∧
  (∀ k, k < n → s.1 k =
    if runstart r k then ((min (runLen w r k) (n - k) : Nat) : ℚ) else 0)

theorem rowInv_holds (w : Nat) (r : Row) (hbin : ∀ k, k < w → r k = 0 ∨ r k = 1) :
    ∀ n, n ≤ w → RowInv w r n ((List.range n).foldl reduceRowStep (r, none)) := by
  intro n
  induction n with
  | zero =>
    intro _
    simp only [List.range_zero, List.foldl_nil]
    unfold RowInv
    refine ⟨fun k _ => rfl, by simp, ?_, ?_⟩
    · intro p hp; exact absurd hp (by simp)
    · intro k hk; exact absurd hk (by omega)
  | succ n ih =>
    intro hsn
    have hn : n < w := by omega
    have hI := ih (by omega)
    unfold RowInv at hI
    obtain ⟨i1, i2, i3, i4⟩ := hI
    rw [foldl_range_succ]
    set s := (List.range n).foldl reduceRowStep (r, none) with hs
    have hcur : s.1 n = r n := i1 n le_rfl
    unfold RowInv
    by_cases h1 : r n = 1
    · rcases hopt : s.2 with _ | p
      · -- a one with no open run: open a run at n, no write
        have hstart : n = 0 ∨ r (n-1) ≠ 1 := i2.mp hopt
        have hstep : reduceRowStep s n = (s.1, some n) := by
          simp only [reduceRowStep, hopt, hcur, h1, if_pos]
        rw [hstep]
        have c1 : ∀ k, n + 1 ≤ k → s.1 k = r k := fun k hk => i1 k (by omega)
        have c2 : (some n : Option Nat) = none ↔ (n + 1 = 0 ∨ r (n+1-1) ≠ 1) := by
          constructor
          · intro h; exact absurd h (by simp)
          · intro h
            rcases h with h | h
            · omega
            · exact absurd h1 h
        have c3 : ∀ p, (some n : Option Nat) = some p →
            p < n + 1 ∧ (p = 0 ∨ r (p-1) ≠ 1) ∧ ∀ m, p ≤ m → m < n + 1 → r m = 1 := by
          intro p hp
          injection hp with hnp
          subst hnp
          refine ⟨by omega, hstart, ?_⟩
          intro m hm1 hm2
          have hm : m = n := by omega
          rw [hm]; exact h1
        have c4 : ∀ k, k < n + 1 → s.1 k =
            if runstart r k then ((min (runLen w r k) (n + 1 - k) : Nat) : ℚ) else 0 := by
          intro k hk
          rcases Nat.lt_or_ge k n with hklt | hkge
          · rw [i4 k hklt]
            by_cases hrs : runstart r k
            · rw [if_pos hrs, if_pos hrs]
              have hle : runLen w r k ≤ n - 1 - k := by
                rcases hstart with h0 | hne
                · omega
                · by_contra hcon
                  push_neg at hcon
                  have hmem := runLen_mem w r (n-1-k) k (by omega)
                  rw [show k + (n-1-k) = n-1 by omega] at hmem
                  exact hne hmem.1
              have hmm : min (runLen w r k) (n - k) = min (runLen w r k) (n + 1 - k) := by
                omega
              rw [hmm]
            · rw [if_neg hrs, if_neg hrs]
          · have hkn : k = n := by omega
            rw [hkn, hcur]
            have hrs : runstart r n := ⟨h1, hstart⟩
            rw [if_pos hrs]
            have h1n : 1 ≤ runLen w r n := runLen_pos w r n hn h1
            have hmm : min (runLen w r n) (n + 1 - n) = 1 := by omega
            rw [hmm, h1]
            norm_num
        exact ⟨c1, c2, c3, c4⟩
      · -- a one extending the open run from p
        obtain ⟨hp_lt, hp_start, hp_ones⟩ := i3 p hopt
        have hrp : r p = 1 := hp_ones p le_rfl hp_lt
        have hrs_p : runstart r p := ⟨hrp, hp_start⟩
        have hstep : reduceRowStep s n
            = (updRow (updRow s.1 p (s.1 p + 1)) n 0, some p) := by
          simp only [reduceRowStep, hopt, hcur, h1, if_pos]
        rw [hstep]
        have hap : s.1 p = ((min (runLen w r p) (n - p) : Nat) : ℚ) := by
          rw [i4 p hp_lt, if_pos hrs_p]
        have hrge : n + 1 - p ≤ runLen w r p := by
          refine runLen_ge w r (n+1-p) p ?_ (by omega)
          intro m hm1 hm2
          rcases Nat.lt_or_ge m n with h | h
          · exact hp_ones m hm1 h
          · have hm : m = n := by omega
            rw [hm]; exact h1
        have hap2 : s.1 p = ((n - p : Nat) : ℚ) := by
          rw [hap, show min (runLen w r p) (n - p) = n - p by omega]
        have c1 : ∀ k, n + 1 ≤ k → updRow (updRow s.1 p (s.1 p + 1)) n 0 k = r k := by
          intro k hk
          rw [updRow_ne _ _ (by omega), updRow_ne _ _ (by omega)]
          exact i1 k (by omega)
        have c2 : (some p : Option Nat) = none ↔ (n + 1 = 0 ∨ r (n+1-1) ≠ 1) := by
          constructor
          · intro h; exact absurd h (by simp)
          · intro h
            rcases h with h | h
            · omega
            · exact absurd h1 h
        have c3 : ∀ q, (some p : Option Nat) = some q →
            q < n + 1 ∧ (q = 0 ∨ r (q-1) ≠ 1) ∧ ∀ m, q ≤ m → m < n + 1 → r m = 1 := by
          intro q hq
          injection hq with hpq
          subst hpq
          refine ⟨by omega, hp_start, ?_⟩
          intro m hm1 hm2
          rcases Nat.lt_or_ge m n with h | h
          · exact hp_ones m hm1 h
          · have hm : m = n := by omega
            rw [hm]; exact h1
        have c4 : ∀ k, k < n + 1 → updRow (updRow s.1 p (s.1 p + 1)) n 0 k =
            if runstart r k then ((min (runLen w r k) (n + 1 - k) : Nat) : ℚ) else 0 := by
          intro k hk
          by_cases hkn : k = n
          · rw [hkn, updRow_at]
            have hrs_n : ¬ runstart r n := by
              intro hrs
              rcases hrs.2 with h0 | hne
              · omega
              · exact hne (hp_ones (n-1) (by omega) (by omega))
            rw [if_neg hrs_n]
          · by_cases hkp : k = p
            · rw [hkp, updRow_ne _ _ (by omega), updRow_at, hap2]
              rw [if_pos hrs_p]
              rw [show min (runLen w r p) (n + 1 - p) = n + 1 - p by omega]
              rw [show (n + 1 - p : Nat) = (n - p) + 1 by omega]
              rw [Nat.cast_add, Nat.cast_one]
            · have hklt : k < n := by omega
              rw [updRow_ne _ _ (by omega), updRow_ne _ _ (by omega), i4 k hklt]
              by_cases hrs : runstart r k
              · rw [if_pos hrs, if_pos hrs]
                have hle : runLen w r k ≤ n - k := by
                  by_contra hcon
                  push_neg at hcon
                  have hall : ∀ m, k ≤ m → m ≤ n → r m = 1 := by
                    intro m hm1 hm2
                    have hmem := runLen_mem w r (m - k) k (by omega)
                    rw [show k + (m - k) = m by omega] at hmem
                    exact hmem.1
                  rcases Nat.lt_or_ge k p with hlt | hge
                  · rcases hp_start with h0 | hne
                    · omega
                    · exact hne (hall (p-1) (by omega) (by omega))
                  · rcases hrs.2 with h0 | hne
                    · omega
                    · exact hne (hp_ones (k-1) (by omega) (by omega))
                rw [show min (runLen w r k) (n - k)
                  = min (runLen w r k) (n + 1 - k) by omega]
              · rw [if_neg hrs, if_neg hrs]
        exact ⟨c1, c2, c3, c4⟩
    · -- not a one: close any open run, no write
      have hstep : reduceRowStep s n = (s.1, none) := by
        simp only [reduceRowStep, hcur]
        rw [if_neg h1]
      rw [hstep]
      have hr0 : r n = 0 := by
        rcases hbin n hn with h | h
        · exact h
        · exact absurd h h1
      have c1 : ∀ k, n + 1 ≤ k → s.1 k = r k := fun k hk => i1 k (by omega)
      have c2 : (none : Option Nat) = none ↔ (n + 1 = 0 ∨ r (n+1-1) ≠ 1) := by
        simp only [true_iff, iff_true]
        · right
          exact h1
      have c3 : ∀ p, (none : Option Nat) = some p →
          p < n + 1 ∧ (p = 0 ∨ r (p-1) ≠ 1) ∧ ∀ m, p ≤ m → m < n + 1 → r m = 1 := by
        intro p hp; exact absurd hp (by simp)
      have c4 : ∀ k, k < n + 1 → s.1 k =
          if runstart r k then ((min (runLen w r k) (n + 1 - k) : Nat) : ℚ) else 0 := by
        intro k hk
        by_cases hkn : k = n
        · rw [hkn, hcur]
          have hrs_n : ¬ runstart r n := fun hrs => h1 hrs.1
          rw [if_neg hrs_n, hr0]
        · have hklt : k < n := by omega
          rw [i4 k hklt]
          by_cases hrs : runstart r k
          · rw [if_pos hrs, if_pos hrs]
            have hle : runLen w r k ≤ n - k := by
              by_contra hcon
              push_neg at hcon
              have hmem := runLen_mem w r (n - k) k (by omega)
              rw [show k + (n - k) = n by omega] at hmem
              exact h1 hmem.1
            rw [show min (runLen w r k) (n - k)
              = min (runLen w r k) (n + 1 - k) by omega]
          · rw [if_neg hrs, if_neg hrs]
      exact ⟨c1, c2, c3, c4⟩

/-- Exact content of a compressed binary row: run starts hold their
full run length, every other cell is 0, and cells beyond the width are
untouched. -/
theorem reduceRow_char (w : Nat) (r : Row)
    (hbin : ∀ k, k < w → r k = 0 ∨ r k = 1) (k : Nat) :
    reduceRow w r k =
      if k < w then
        (if runstart r k then ((runLen w r k : Nat) : ℚ) else 0)
      else r k := by
  have hI := rowInv_holds w r hbin w le_rfl
  unfold RowInv at hI
  obtain ⟨i1, _, _, i4⟩ := hI
  by_cases hk : k < w
  · rw [if_pos hk]
    have h4 := i4 k hk
    rw [show min (runLen w r k) (w - k) = runLen w r k by
      have := runLen_le w r k; omega] at h4
    exact h4
  · rw [if_neg hk]
    exact i1 k (by omega)

/-- Sum of the first w cells of a row. -/
def rowSum (w : Nat) (r : Row) : ℚ := ∑ k ∈ Finset.range w, r k

/-- Number of cells equal to 1 among the first w cells of a row. -/
def onesRow (w : Nat) (r : Row) : Nat :=
  ((Finset.range w).filter (fun k => r k = 1)).card

/-- Number of maximal runs of consecutive ones in a width w row. -/
def runsRow (w : Nat) (r : Row) : Nat :=
  ((Finset.range w).filter (fun k => runstart r k)).card

theorem rowSum_updRow (w : Nat) (a : Row) (k : Nat) (hk : k < w) (v : ℚ) :
    rowSum w (updRow a k v) = rowSum w a - a k + v := by
  unfold rowSum
  have hmem : k ∈ Finset.range w := Finset.mem_range.mpr hk
  rw [← Finset.add_sum_erase _ (updRow a k v) hmem, ← Finset.add_sum_erase _ a hmem]
  rw [updRow_at]
  rw [Finset.sum_congr rfl
    (fun x hx => updRow_ne a v (Finset.ne_of_mem_erase hx) : ∀ x ∈ (Finset.range w).erase k,
      updRow a k v x = a x)]
  ring

theorem reduceRow_sum_inv (w : Nat) (r : Row) :
    ∀ n, n ≤ w →
      rowSum w ((List.range n).foldl reduceRowStep (r, none)).1 = rowSum w r ∧
      (∀ p, ((List.range n).foldl reduceRowStep (r, none)).2 = some p → p < n) := by
  intro n
  induction n with
  | zero =>
    intro _
    simp only [List.range_zero, List.foldl_nil]
    exact ⟨by trivial, fun p hp => absurd hp (by simp)⟩
  | succ n ih =>
    intro hn1
    obtain ⟨s1, s2⟩ := ih (by omega)
    rw [foldl_range_succ]
    set s := (List.range n).foldl reduceRowStep (r, none) with hs
    by_cases h1 : s.1 n = 1
    · rcases hopt : s.2 with _ | p
      · have hstep : reduceRowStep s n = (s.1, some n) := by
          simp only [reduceRowStep, hopt, h1, if_pos]
        rw [hstep]
        exact ⟨s1, fun p hp => by injection hp with h; omega⟩
      · have hp := s2 p hopt
        have hstep : reduceRowStep s n
            = (updRow (updRow s.1 p (s.1 p + 1)) n 0, some p) := by
          simp only [reduceRowStep, hopt, h1, if_pos]
        rw [hstep]
        refine ⟨?_, fun q hq => by injection hq with h; omega⟩
        rw [rowSum_updRow w _ n (by omega), rowSum_updRow w _ p (by omega)]
        rw [updRow_ne _ _ (by omega : n ≠ p), h1]
        linarith [s1]
    · have hstep : reduceRowStep s n = (s.1, none) := by
        simp only [reduceRowStep]
        rw [if_neg h1]
      rw [hstep]
      exact ⟨s1, fun p hp => absurd hp (by simp)⟩

/-- The row pass preserves the sum of the row, for every input row. -/
theorem rowSum_reduceRow (w : Nat) (r : Row) :
    rowSum w (reduceRow w r) = rowSum w r :=
  (reduceRow_sum_inv w r w le_rfl).1

/-- The sum of a binary row counts its ones. -/
theorem rowSum_binary (w : Nat) (r : Row)
    (hbin : ∀ k, k < w → r k = 0 ∨ r k = 1) :
    rowSum w r = (onesRow w r : ℚ) := by
  unfold rowSum onesRow
  rw [← Finset.sum_boole]
  refine Finset.sum_congr rfl ?_
  intro k hk
  rcases hbin k (Finset.mem_range.mp hk) with h | h <;> rw [h] <;> norm_num

theorem reduceRow_pos_iff (w : Nat) (r : Row)
    (hbin : ∀ k, k < w → r k = 0 ∨ r k = 1) (k : Nat) (hk : k < w) :
    0 < reduceRow w r k ↔ runstart r k := by
  rw [reduceRow_char w r hbin k, if_pos hk]
  by_cases hrs : runstart r k
  · rw [if_pos hrs]
    constructor
    · intro _; exact hrs
    · intro _
      have := runLen_pos w r k hk hrs.1
      exact_mod_cast Nat.cast_pos.mpr (by omega)
  · rw [if_neg hrs]
    simp [hrs]

theorem reduceRow_zero_or_pos (w : Nat) (r : Row)
    (hbin : ∀ k, k < w → r k = 0 ∨ r k = 1) (k : Nat) (hk : k < w) :
    reduceRow w r k = 0 ∨ 0 < reduceRow w r k := by
  rw [reduceRow_char w r hbin k, if_pos hk]
  by_cases hrs : runstart r k
  · right
    rw [if_pos hrs]
    have := runLen_pos w r k hk hrs.1
    exact_mod_cast Nat.cast_pos.mpr (by omega)
  · left
    rw [if_neg hrs]

/-- A compressed binary row has no two adjacent cells equal to 1. -/
theorem reduceRow_no_adj (w : Nat) (r : Row)
    (hbin : ∀ k, k < w → r k = 0 ∨ r k = 1) :
    ∀ k, k + 1 < w → ¬(reduceRow w r k = 1 ∧ reduceRow w r (k+1) = 1) := by
  rintro k hk ⟨ha, hb⟩
  rw [reduceRow_char w r hbin (k+1), if_pos (by omega)] at hb
  by_cases hrs : runstart r (k+1)
  · have hrk : r k ≠ 1 := by
      rcases hrs.2 with h | h
      · omega
      · exact h
    rw [reduceRow_char w r hbin k, if_pos (by omega)] at ha
    by_cases hrs2 : runstart r k
    · exact hrk hrs2.1
    · rw [if_neg hrs2] at ha
      norm_num at ha
  · rw [if_neg hrs] at hb
    norm_num at hb

theorem reduceRow_fix_inv (w : Nat) (a : Row)
    (hnoadj : ∀ k, k + 1 < w → ¬(a k = 1 ∧ a (k+1) = 1)) :
    ∀ n, n ≤ w →
      ((List.range n).foldl reduceRowStep (a, none)).1 = a ∧
      (∀ p, ((List.range n).foldl reduceRowStep (a, none)).2 = some p →
        p + 1 = n ∧ a p = 1) := by
  intro n
  induction n with
  | zero =>
    intro _
    simp only [List.range_zero, List.foldl_nil]
    exact ⟨by trivial, fun p hp => absurd hp (by simp)⟩
  | succ n ih =>
    intro hn
    obtain ⟨f1, f2⟩ := ih (by omega)
    rw [foldl_range_succ]
    set s := (List.range n).foldl reduceRowStep (a, none) with hs
    by_cases h1 : s.1 n = 1
    · rcases hopt : s.2 with _ | p
      · have hstep : reduceRowStep s n = (s.1, some n) := by
          simp only [reduceRowStep, hopt, h1, if_pos]
        rw [hstep]
        refine ⟨f1, fun p hp => ?_⟩
        injection hp with h
        subst h
        exact ⟨rfl, by rw [← f1]; exact h1⟩
      · obtain ⟨hpn, hap⟩ := f2 p hopt
        exfalso
        have han : a n = 1 := by rw [← f1]; exact h1
        refine hnoadj p (by omega) ⟨hap, ?_⟩
        rw [show p + 1 = n by omega]
        exact han
    · have hstep : reduceRowStep s n = (s.1, none) := by
        simp only [reduceRowStep]
        rw [if_neg h1]
      rw [hstep]
      exact ⟨f1, fun p hp => absurd hp (by simp)⟩

/-- A row with no two adjacent ones is a fixed point of the row pass. -/
theorem reduceRow_fix (w : Nat) (a : Row)
    (hnoadj : ∀ k, k + 1 < w → ¬(a k = 1 ∧ a (k+1) = 1)) :
    reduceRow w a = a :=
  (reduceRow_fix_inv w a hnoadj w le_rfl).1

theorem list_sum_range {M : Type} [AddCommMonoid M] (f : Nat → M) (n : Nat) :
    ((List.range n).map f).sum = ∑ k ∈ Finset.range n, f k := by
  induction n with
  | zero => simp
  | succ n ih =>
    rw [List.range_succ, List.map_append, List.sum_append, Finset.sum_range_succ, ih]
    simp

/-- A binary mask: every in grid cell is 0 or 1. -/
def IsBinary (h w : Nat) (m : Buf2) : Prop :=
  ∀ i j, i < h → j < w → m i j = 0 ∨ m i j = 1

theorem reduce_by_row_apply_lt (h w : Nat) (m : Buf2) (i : Nat) (hi : i < h) :
    reduce_by_row h w m i = reduceRow w (m i) := by
  unfold reduce_by_row
  rw [if_pos hi]

theorem reduce_by_row_apply_ge (h w : Nat) (m : Buf2) (i : Nat) (hi : ¬ i < h) :
    reduce_by_row h w m i = m i := by
  unfold reduce_by_row
  rw [if_neg hi]

/-- The example row of the specification scenario. -/
def exRow : Row := fun t => [1,1,1,0,1].getD t 0

/-- A one row mask holding the scenario row. -/
def exMask : Buf2 := fun _ t => [1,1,1,0,1].getD t 0

/-- A one row mask holding the row [1, 1]. -/
def exMask2 : Buf2 := fun _ t => [1,1].getD t 0

/-- C1: for every binary mask, each row of the array returned by
reduce_by_row sums to the number of ones of the corresponding input
row; the run length stored at any cell fits inside the row (so no run
crosses a row boundary); and the row [1,1,1,0,1] compresses to
[3,0,0,0,1]. -/
theorem C1_row_compression (h w : Nat) (m : Buf2) (hbin : IsBinary h w m) :
    (∀ i, i < h → rowSum w (reduce_by_row h w m i) = (onesRow w (m i) : ℚ)) ∧
    (∀ i j, i < h → j < w → reduce_by_row h w m i j ≤ ((w - j : Nat) : ℚ)) ∧
    (∀ k, k < 5 → reduceRow 5 exRow k = [3,0,0,0,1].getD k 0) := by
  refine ⟨?_, ?_, ?_⟩
  · intro i hi
    rw [reduce_by_row_apply_lt h w m i hi, rowSum_reduceRow]
    exact rowSum_binary w (m i) (fun k hk => hbin i k hi hk)
  · intro i j hi hj
    rw [reduce_by_row_apply_lt h w m i hi]
    rw [reduceRow_char w (m i) (fun k hk => hbin i k hi hk) j, if_pos hj]
    by_cases hrs : runstart (m i) j
    · rw [if_pos hrs]
      exact Nat.cast_le.mpr (runLen_le w (m i) j)
    · rw [if_neg hrs]
      exact Nat.cast_nonneg _
  · intro k hk
    interval_cases k <;>
      norm_num [reduceRow, reduceRowStep, updRow, exRow, List.range_succ]

/-- Closed instance of C1 at the scenario mask. -/
theorem C1_row_compression_witness :
    (∀ i, i < 1 → rowSum 5 (reduce_by_row 1 5 exMask i) = (onesRow 5 (exMask i) : ℚ)) ∧
    (∀ i j, i < 1 → j < 5 → reduce_by_row 1 5 exMask i j ≤ ((5 - j : Nat) : ℚ)) ∧
    (∀ k, k < 5 → reduceRow 5 exRow k = [3,0,0,0,1].getD k 0) :=
  C1_row_compression 1 5 exMask (by
    intro i j hi hj
    interval_cases j <;> norm_num [exMask])

/-- C9 as stated is false: reduce_by_row copies the input
(new_arr = arr.copy()) and compresses the copy, so the caller array
after the call differs from the returned array on the mask [[1, 1]]. -/
theorem C9_counterexample :
    ¬ (∀ h w m, (reduce_by_row_call h w m).2 = (reduce_by_row_call h w m).1) := by
  intro hcl
  have h := congrFun (congrFun (hcl 1 2 exMask2) 0) 1
  rw [show (reduce_by_row_call 1 2 exMask2).2 0 1 = 1 by norm_num [reduce_by_row_call, exMask2]] at h
  rw [show (reduce_by_row_call 1 2 exMask2).1 0 1 = 0 by
    norm_num [reduce_by_row_call, reduce_by_row, reduceRow, reduceRowStep, updRow,
      exMask2, List.range_succ]] at h
  norm_num at h

/-- C9 amended: reduce_by_row builds its result in a copy, so the call
leaves the caller array unchanged and returns a separate array holding
the compressed rows (each row summing to the ones of the input row). -/
theorem C9_amended_copy (h w : Nat) (m : Buf2) (hbin : IsBinary h w m) :
    (reduce_by_row_call h w m).2 = m ∧
    (∀ i, i < h →
      rowSum w ((reduce_by_row_call h w m).1 i) = (onesRow w (m i) : ℚ)) := by
  refine ⟨rfl, ?_⟩
  intro i hi
  show rowSum w (reduce_by_row h w m i) = _
  rw [reduce_by_row_apply_lt h w m i hi, rowSum_reduceRow]
  exact rowSum_binary w (m i) (fun k hk => hbin i k hi hk)

/-- Closed instance of the amended C9. -/
theorem C9_amended_copy_witness :
    (reduce_by_row_call 1 5 exMask).2 = exMask ∧
    (∀ i, i < 1 →
      rowSum 5 ((reduce_by_row_call 1 5 exMask).1 i) = (onesRow 5 (exMask i) : ℚ)) :=
  C9_amended_copy 1 5 exMask (by
    intro i j hi hj
    interval_cases j <;> norm_num [exMask])

/-- C10: reduce_by_row is idempotent on binary masks. -/
theorem C10_idempotent (h w : Nat) (m : Buf2) (hbin : IsBinary h w m) :
    reduce_by_row h w (reduce_by_row h w m) = reduce_by_row h w m := by
  funext i
  by_cases hi : i < h
  · rw [reduce_by_row_apply_lt h w (reduce_by_row h w m) i hi,
      reduce_by_row_apply_lt h w m i hi]
    exact reduceRow_fix w (reduceRow w (m i))
      (reduceRow_no_adj w (m i) (fun k hk => hbin i k hi hk))
  · rw [reduce_by_row_apply_ge h w (reduce_by_row h w m) i hi,
      reduce_by_row_apply_ge h w m i hi]

/-- Closed instance of C10 at the scenario mask. -/
theorem C10_idempotent_witness :
    reduce_by_row 1 5 (reduce_by_row 1 5 exMask) = reduce_by_row 1 5 exMask :=
  C10_idempotent 1 5 exMask (by
    intro i j hi hj
    interval_cases j <;> norm_num [exMask])

/-- One emitted toolpath line.  The string formatting of the source is
abstracted into constructors carrying exactly the numbers printed:
header (initial travel target), outline (corner and the two extents
len(arr)*scale and len(arr[0])*scale), a row comment per row, one mark
(travel, pen down to z, pen up) per on cell, one stroke (travel, pen
down, travel along the row, pen up) per run, and the motor off footer. -/
inductive GLine where
  | header (x y : ℚ)
  | outline (x y xExt yExt : ℚ)
  | startComment
  | rowComment (i : Nat)
  | mark (mx my z : ℚ)
  | stroke (sx sy ey z : ℚ)
  | footer

/-- to_gcode of the source: full cell strategy, one mark per cell equal
to 1, at physical position (i*scale + x, j*scale + y). -/
def to_gcode (h w : Nat) (arr : Buf2) (x y z_offset scale : ℚ) : List GLine :=
  [GLine.header x y,
    GLine.outline x y (x + (h : ℚ) * scale) (y + (w : ℚ) * scale),
    GLine.startComment]
  ++ (List.range h).flatMap (fun i =>
      GLine.rowComment i ::
        (List.range w).flatMap (fun j =>
          if arr i j = 1 then
            [GLine.mark ((i : ℚ) * scale + x) ((j : ℚ) * scale + y) z_offset]
          else []))
  ++ [GLine.footer]

/-- to_gcode_reduced of the source: run compressed strategy, one stroke
per cell with positive run length, from (i*scale + x, j*scale + y) to
(i*scale + x, (j + factor - 1)*scale + y). -/
def to_gcode_reduced (h w : Nat) (arr : Buf2) (x y z_offset scale : ℚ) : List GLine :=
  [GLine.header x y,
    GLine.outline x y (x + (h : ℚ) * scale) (y + (w : ℚ) * scale),
    GLine.startComment]
  ++ (List.range h).flatMap (fun i =>
      GLine.rowComment i ::
        (List.range w).flatMap (fun j =>
          if 0 < arr i j then
            [GLine.stroke ((i : ℚ) * scale + x) ((j : ℚ) * scale + y)
              (((j : ℚ) + arr i j - 1) * scale + y) z_offset]
          else []))
  ++ [GLine.footer]

/-- Mode dispatch of convert_image: the match recognises "normal" and
"reduced"; every other string falls to the default branch, which runs
the full cell strategy. -/
def convert_dispatch (h w : Nat) (m : Buf2) (x y z s : ℚ) (mode : String) :
    List GLine :=
  if mode = "normal" then to_gcode h w m x y z s
  else if mode = "reduced" then to_gcode_reduced h w (reduce_by_row h w m) x y z s
  else to_gcode h w m x y z s

def isMark : GLine → Bool
  | GLine.mark _ _ _ => true
  | _ => false

def isStroke : GLine → Bool
  | GLine.stroke _ _ _ _ => true
  | _ => false

/-- Number of cells a stroke line covers: its y extent divided by the
scale, plus one; every other line covers no cell. -/
def strokeCells (scale : ℚ) : GLine → ℚ
  | GLine.stroke _ sy ey _ => (ey - sy) / scale + 1
  | _ => 0

/-- Total number of cells covered by the strokes of a program. -/
def coveredTotal (scale : ℚ) (L : List GLine) : ℚ :=
  (L.map (strokeCells scale)).sum

/-- Total number of on cells of a mask. -/
def onCount (h w : Nat) (m : Buf2) : Nat := ∑ i ∈ Finset.range h, onesRow w (m i)

/-- Total number of maximal runs of ones of a mask. -/
def runsCount (h w : Nat) (m : Buf2) : Nat := ∑ i ∈ Finset.range h, runsRow w (m i)

theorem countP_flatMap {α β : Type} (p : β → Bool) (f : α → List β) (l : List α) :
    (l.flatMap f).countP p = (l.map (fun a => (f a).countP p)).sum := by
  induction l with
  | nil => rfl
  | cons a t ih =>
    rw [List.flatMap_cons, List.countP_append, List.map_cons, List.sum_cons, ih]

theorem sumMap_flatMap {α β : Type} (g : β → ℚ) (f : α → List β) (l : List α) :
    ((l.flatMap f).map g).sum = (l.map (fun a => ((f a).map g).sum)).sum := by
  induction l with
  | nil => rfl
  | cons a t ih =>
    rw [List.flatMap_cons, List.map_append, List.sum_append, List.map_cons,
      List.sum_cons, ih]

theorem row_marks (w : Nat) (r : Row) (i : Nat) (x y z s : ℚ) :
    (GLine.rowComment i ::
      (List.range w).flatMap (fun j =>
        if r j = 1 then
          [GLine.mark ((i : ℚ) * s + x) ((j : ℚ) * s + y) z]
        else [])).countP isMark = onesRow w r := by
  rw [List.countP_cons]
  rw [show isMark (GLine.rowComment i) = false from rfl]
  rw [countP_flatMap, list_sum_range]
  unfold onesRow
  rw [Finset.card_filter]
  simp only [Bool.false_eq_true, if_false, add_zero]
  refine Finset.sum_congr rfl ?_
  intro j hj
  by_cases hc : r j = 1
  · rw [if_pos hc, if_pos hc]
    rfl
  · rw [if_neg hc, if_neg hc]
    rfl

theorem row_strokes (w : Nat) (r : Row) (i : Nat) (x y z s : ℚ) :
    (GLine.rowComment i ::
      (List.range w).flatMap (fun j =>
        if 0 < r j then
          [GLine.stroke ((i : ℚ) * s + x) ((j : ℚ) * s + y)
            (((j : ℚ) + r j - 1) * s + y) z]
        else [])).countP isStroke
      = ((Finset.range w).filter (fun j => 0 < r j)).card := by
  rw [List.countP_cons]
  rw [show isStroke (GLine.rowComment i) = false from rfl]
  rw [countP_flatMap, list_sum_range]
  rw [Finset.card_filter]
  simp only [Bool.false_eq_true, if_false, add_zero]
  refine Finset.sum_congr rfl ?_
  intro j hj
  by_cases hc : 0 < r j
  · rw [if_pos hc, if_pos hc]
    rfl
  · rw [if_neg hc, if_neg hc]
    rfl

theorem row_covered (w : Nat) (r : Row) (i : Nat) (x y z s : ℚ) (hs : s ≠ 0) :
    ((GLine.rowComment i ::
      (List.range w).flatMap (fun j =>
        if 0 < r j then
          [GLine.stroke ((i : ℚ) * s + x) ((j : ℚ) * s + y)
            (((j : ℚ) + r j - 1) * s + y) z]
        else [])).map (strokeCells s)).sum
      = ∑ j ∈ Finset.range w, (if 0 < r j then r j else 0) := by
  rw [List.map_cons, List.sum_cons]
  rw [show strokeCells s (GLine.rowComment i) = 0 from rfl, zero_add]
  rw [sumMap_flatMap, list_sum_range]
  refine Finset.sum_congr rfl ?_
  intro j hj
  by_cases hc : 0 < r j
  · rw [if_pos hc, if_pos hc]
    simp only [List.map_cons, List.map_nil, List.sum_cons, List.sum_nil, add_zero]
    rw [show strokeCells s (GLine.stroke ((i : ℚ) * s + x) ((j : ℚ) * s + y)
      (((j : ℚ) + r j - 1) * s + y) z)
        = ((((j : ℚ) + r j - 1) * s + y) - ((j : ℚ) * s + y)) / s + 1 from rfl]
    field_simp
    ring
  · rw [if_neg hc, if_neg hc]
    rfl

theorem to_gcode_marks_count (h w : Nat) (m : Buf2) (x y z s : ℚ) :
    (to_gcode h w m x y z s).countP isMark = onCount h w m := by
  unfold to_gcode
  rw [List.countP_append, List.countP_append, countP_flatMap, list_sum_range]
  rw [show ([GLine.header x y,
      GLine.outline x y (x + (h : ℚ) * s) (y + (w : ℚ) * s),
      GLine.startComment] : List GLine).countP isMark = 0 from rfl]
  rw [show ([GLine.footer] : List GLine).countP isMark = 0 from rfl]
  unfold onCount
  rw [Finset.sum_congr rfl (fun i _ => row_marks w (m i) i x y z s)]
  omega

theorem to_gcode_reduced_strokes_count (h w : Nat) (a : Buf2) (x y z s : ℚ) :
    (to_gcode_reduced h w a x y z s).countP isStroke
      = ∑ i ∈ Finset.range h, ((Finset.range w).filter (fun j => 0 < a i j)).card := by
  unfold to_gcode_reduced
  rw [List.countP_append, List.countP_append, countP_flatMap, list_sum_range]
  rw [show ([GLine.header x y,
      GLine.outline x y (x + (h : ℚ) * s) (y + (w : ℚ) * s),
      GLine.startComment] : List GLine).countP isStroke = 0 from rfl]
  rw [show ([GLine.footer] : List GLine).countP isStroke = 0 from rfl]
  rw [Finset.sum_congr rfl (fun i _ => row_strokes w (a i) i x y z s)]
  omega

theorem to_gcode_reduced_covered (h w : Nat) (a : Buf2) (x y z s : ℚ) (hs : s ≠ 0) :
    coveredTotal s (to_gcode_reduced h w a x y z s)
      = ∑ i ∈ Finset.range h, ∑ j ∈ Finset.range w, (if 0 < a i j then a i j else 0) := by
  unfold coveredTotal to_gcode_reduced
  rw [List.map_append, List.map_append, List.sum_append, List.sum_append]
  rw [show (([GLine.header x y,
      GLine.outline x y (x + (h : ℚ) * s) (y + (w : ℚ) * s),
      GLine.startComment] : List GLine).map (strokeCells s)).sum = 0 from by
    simp [strokeCells]]
  rw [show (([GLine.footer] : List GLine).map (strokeCells s)).sum = 0 from by
    simp [strokeCells]]
  rw [sumMap_flatMap, list_sum_range]
  rw [Finset.sum_congr rfl (fun i _ => row_covered w (a i) i x y z s hs)]
  ring

/-- C4: on a binary mask the full cell emitter emits exactly one mark
per cell equal to 1; the run compressed emitter applied to the
compressed mask emits exactly one stroke per maximal run of ones of a
row; and the total number of cells covered by all strokes equals the
number of on cells. -/
theorem C4_emitters (h w : Nat) (m : Buf2) (x y z s : ℚ)
    (hbin : IsBinary h w m) (hs : s ≠ 0) :
    (to_gcode h w m x y z s).countP isMark = onCount h w m ∧
    (to_gcode_reduced h w (reduce_by_row h w m) x y z s).countP isStroke
      = runsCount h w m ∧
    coveredTotal s (to_gcode_reduced h w (reduce_by_row h w m) x y z s)
      = (onCount h w m : ℚ) := by
  refine ⟨to_gcode_marks_count h w m x y z s, ?_, ?_⟩
  · rw [to_gcode_reduced_strokes_count h w (reduce_by_row h w m) x y z s]
    unfold runsCount
    refine Finset.sum_congr rfl ?_
    intro i hi
    have hi2 : i < h := Finset.mem_range.mp hi
    have hbr : ∀ k, k < w → m i k = 0 ∨ m i k = 1 := fun k hk => hbin i k hi2 hk
    unfold runsRow
    refine congrArg Finset.card (Finset.filter_congr ?_)
    intro j hj
    rw [reduce_by_row_apply_lt h w m i hi2]
    exact reduceRow_pos_iff w (m i) hbr j (Finset.mem_range.mp hj)
  · rw [to_gcode_reduced_covered h w (reduce_by_row h w m) x y z s hs]
    unfold onCount
    rw [Nat.cast_sum]
    refine Finset.sum_congr rfl ?_
    intro i hi
    have hi2 : i < h := Finset.mem_range.mp hi
    have hbr : ∀ k, k < w → m i k = 0 ∨ m i k = 1 := fun k hk => hbin i k hi2 hk
    have hstep1 : ∑ j ∈ Finset.range w,
        (if 0 < reduce_by_row h w m i j then reduce_by_row h w m i j else 0)
        = ∑ j ∈ Finset.range w, reduce_by_row h w m i j := by
      refine Finset.sum_congr rfl ?_
      intro j hj
      by_cases hc : 0 < reduce_by_row h w m i j
      · rw [if_pos hc]
      · rw [if_neg hc]
        have hzp : reduce_by_row h w m i j = 0 ∨ 0 < reduce_by_row h w m i j := by
          rw [reduce_by_row_apply_lt h w m i hi2]
          exact reduceRow_zero_or_pos w (m i) hbr j (Finset.mem_range.mp hj)
        rcases hzp with h0 | h0
        · rw [h0]
        · exact absurd h0 hc
    rw [hstep1]
    show rowSum w (reduce_by_row h w m i) = _
    rw [reduce_by_row_apply_lt h w m i hi2, rowSum_reduceRow]
    exact rowSum_binary w (m i) hbr

/-- Closed instance of C4 at the scenario mask with scale 1. -/
theorem C4_emitters_witness :
    (to_gcode 1 5 exMask 0 0 (1/10) 1).countP isMark = onCount 1 5 exMask ∧
    (to_gcode_reduced 1 5 (reduce_by_row 1 5 exMask) 0 0 (1/10) 1).countP isStroke
      = runsCount 1 5 exMask ∧
    coveredTotal 1 (to_gcode_reduced 1 5 (reduce_by_row 1 5 exMask) 0 0 (1/10) 1)
      = (onCount 1 5 exMask : ℚ) :=
  C4_emitters 1 5 exMask 0 0 (1/10) 1
    (by intro i j hi hj; interval_cases j <;> norm_num [exMask]) (by norm_num)

/-- C6: a mode string outside the recognised set of the match, which
is made of "normal" and "reduced", takes the default branch, producing
output identical to calling with the explicit mode "full" (itself
unrecognised, hence the full cell strategy); the fallback is
deterministic. -/
theorem C6_mode_fallback (h w : Nat) (m : Buf2) (x y z s : ℚ) (mode : String)
    (h1 : mode ≠ "normal") (h2 : mode ≠ "reduced") :
    convert_dispatch h w m x y z s mode = convert_dispatch h w m x y z s "full" := by
  unfold convert_dispatch
  rw [if_neg h1, if_neg h2,
    if_neg (show ¬("full" : String) = "normal" by decide),
    if_neg (show ¬("full" : String) = "reduced" by decide)]

/-- Closed instance of C6 at a concrete unrecognised mode. -/
theorem C6_mode_fallback_witness :
    convert_dispatch 1 5 exMask 0 0 (1/10) 1 "banana"
      = convert_dispatch 1 5 exMask 0 0 (1/10) 1 "full" :=
  C6_mode_fallback 1 5 exMask 0 0 (1/10) 1 "banana" (by decide) (by decide)

/-- A numpy floating point value as needed here: a finite rational, an
infinity, or nan.  numpy elementwise division by zero does not raise:
it emits a RuntimeWarning and yields inf, -inf or nan according to the
sign of the numerator. -/
inductive NpVal where
  | fin (q : ℚ)
  | posInf
  | negInf
  | nan

/-- numpy division, with the zero denominator cases. -/
def npDiv (a b : ℚ) : NpVal :=
  if b = 0 then
    (if a = 0 then NpVal.nan else if 0 < a then NpVal.posInf else NpVal.negInf)
  else NpVal.fin (a / b)

/-- numpy comparison v <= t: nan and inf compare false, -inf true. -/
def npLe (v : NpVal) (t : ℚ) : Prop :=
  match v with
  | NpVal.fin q => q ≤ t
  | NpVal.posInf => False
  | NpVal.negInf => True
  | NpVal.nan => False

instance : (v : NpVal) → (t : ℚ) → Decidable (npLe v t)
  | NpVal.fin q, t => inferInstanceAs (Decidable (q ≤ t))
  | NpVal.posInf, _ => inferInstanceAs (Decidable False)
  | NpVal.negInf, _ => inferInstanceAs (Decidable True)
  | NpVal.nan, _ => inferInstanceAs (Decidable False)

/-- average_array of the source: np.dot of the first three channels
with the weights, divided by the weight sum (numpy semantics when the
sum is zero), then thresholded with the inverted sense: a cell becomes
1 when the weighted average is at most the threshold, else 0. -/
def average_array (arr : Buf3) (w1 w2 w3 threshold : ℚ) : Buf2 :=
  fun i j =>
    if npLe (npDiv (arr i j 0 * w1 + arr i j 1 * w2 + arr i j 2 * w3) (w1 + w2 + w3))
        threshold
    then 1 else 0

/-- Call wrapper of average_array recording that the source call
always returns normally: the division by a zero weight sum is a numpy
elementwise division, which warns and produces non finite values
instead of raising. -/
def average_array_run (arr : Buf3) (w1 w2 w3 threshold : ℚ) :
    Except String Buf2 :=
  Except.ok (average_array arr w1 w2 w3 threshold)

/-- Uniform grey test buffer with value 1/5 in every channel. -/
def exGrey : Buf3 := fun _ _ _ => 1/5

/-- C5: with at least three channels, nonnegative weights of positive
sum and a threshold in [0, 1], a cell of the channel reducer is 1
exactly when the weighted average (R*w1 + G*w2 + B*w3)/(w1+w2+w3) of
the first three channels is at most the threshold, and 0 exactly
otherwise; with weights (1,1,1) and threshold 1/2 the grey pixel 0.2
yields 1 and the grey pixel 0.9 yields 0. -/
theorem C5_channel_reducer (lc : Nat) (arr : Buf3) (w1 w2 w3 t : ℚ)
    (hlc : 3 ≤ lc)
    (hw1 : 0 ≤ w1) (hw2 : 0 ≤ w2) (hw3 : 0 ≤ w3) (hsum : 0 < w1 + w2 + w3)
    (ht0 : 0 ≤ t) (ht1 : t ≤ 1) (i j : Nat) :
    (average_array arr w1 w2 w3 t i j = 1 ↔
      (arr i j 0 * w1 + arr i j 1 * w2 + arr i j 2 * w3) / (w1 + w2 + w3) ≤ t) ∧
    (average_array arr w1 w2 w3 t i j = 0 ↔
      ¬ (arr i j 0 * w1 + arr i j 1 * w2 + arr i j 2 * w3) / (w1 + w2 + w3) ≤ t) ∧
    average_array (fun _ _ _ => 1/5) 1 1 1 (1/2) i j = 1 ∧
    average_array (fun _ _ _ => 9/10) 1 1 1 (1/2) i j = 0 := by
  have hne : w1 + w2 + w3 ≠ 0 := ne_of_gt hsum
  have hdiv : npDiv (arr i j 0 * w1 + arr i j 1 * w2 + arr i j 2 * w3) (w1 + w2 + w3)
      = NpVal.fin ((arr i j 0 * w1 + arr i j 1 * w2 + arr i j 2 * w3) / (w1 + w2 + w3)) := by
    unfold npDiv
    rw [if_neg hne]
  refine ⟨?_, ?_, ?_, ?_⟩
  · unfold average_array
    rw [hdiv]
    simp only [npLe]
    split_ifs with hc
    · simp [hc]
    · norm_num [hc]
  · unfold average_array
    rw [hdiv]
    simp only [npLe]
    split_ifs with hc
    · norm_num [hc]
    · simp [hc]
  · norm_num [average_array, npDiv, npLe]
  · norm_num [average_array, npDiv, npLe]

/-- Closed instance of C5 at the grey buffer. -/
theorem C5_channel_reducer_witness :
    (average_array exGrey 1 1 1 (1/2) 0 0 = 1 ↔
      (exGrey 0 0 0 * 1 + exGrey 0 0 1 * 1 + exGrey 0 0 2 * 1) / (1 + 1 + 1) ≤ 1/2) ∧
    (average_array exGrey 1 1 1 (1/2) 0 0 = 0 ↔
      ¬ (exGrey 0 0 0 * 1 + exGrey 0 0 1 * 1 + exGrey 0 0 2 * 1) / (1 + 1 + 1) ≤ 1/2) ∧
    average_array (fun _ _ _ => 1/5) 1 1 1 (1/2) 0 0 = 1 ∧
    average_array (fun _ _ _ => 9/10) 1 1 1 (1/2) 0 0 = 0 :=
  C5_channel_reducer 3 exGrey 1 1 1 (1/2) (by norm_num) (by norm_num) (by norm_num)
    (by norm_num) (by norm_num) (by norm_num) (by norm_num) 0 0

/-- C8 as stated is false: a zero weight sum does not make
average_array fail; the numpy elementwise division warns and returns
non finite values and the call returns a mask normally. -/
theorem C8_counterexample :
    ¬ (∀ (arr : Buf3) (w1 w2 w3 t : ℚ), w1 + w2 + w3 = 0 →
        ∃ e, average_array_run arr w1 w2 w3 t = Except.error e) := by
  intro hcl
  obtain ⟨e, he⟩ := hcl (fun _ _ _ => 0) 0 0 0 (1/2) (by norm_num)
  exact absurd he (by unfold average_array_run; simp)

/-- C8 amended: with a zero weight sum average_array does not fail; it
returns a mask whose cells follow the numpy comparison semantics of
the non finite averages: 1 exactly where the weighted numerator is
negative (average -inf), 0 where it is zero (nan) or positive (inf). -/
theorem C8_amended_no_failure (arr : Buf3) (w1 w2 w3 t : ℚ)
    (hz : w1 + w2 + w3 = 0) :
    average_array_run arr w1 w2 w3 t
      = Except.ok (average_array arr w1 w2 w3 t) ∧
    ∀ i j, average_array arr w1 w2 w3 t i j
      = if arr i j 0 * w1 + arr i j 1 * w2 + arr i j 2 * w3 < 0 then 1 else 0 := by
  refine ⟨rfl, ?_⟩
  intro i j
  unfold average_array npDiv
  set num := arr i j 0 * w1 + arr i j 1 * w2 + arr i j 2 * w3 with hnum
  rw [if_pos hz]
  by_cases h0 : num = 0
  · rw [if_pos h0]
    rw [if_neg (show ¬ num < 0 by rw [h0]; norm_num)]
    simp [npLe]
  · by_cases hpos : 0 < num
    · rw [if_neg h0, if_pos hpos]
      rw [if_neg (show ¬ num < 0 by linarith)]
      simp [npLe]
    · rw [if_neg h0, if_neg hpos]
      rw [if_pos (show num < 0 by
        push_neg at hpos
        exact lt_of_le_of_ne hpos h0)]
      simp [npLe]

/-- Closed instance of the amended C8. -/
theorem C8_amended_no_failure_witness :
    average_array_run exGrey 0 0 0 (1/2)
      = Except.ok (average_array exGrey 0 0 0 (1/2)) ∧
    ∀ i j, average_array exGrey 0 0 0 (1/2) i j
      = if exGrey i j 0 * 0 + exGrey i j 1 * 0 + exGrey i j 2 * 0 < 0 then 1 else 0 :=
  C8_amended_no_failure exGrey 0 0 0 (1/2) (by norm_num)

/-- downsample of the source: image.copy()[::factor, ::factor, :],
with numpy slicing semantics for the step.  A step of zero raises
(ValueError), a non integer step raises (TypeError), a positive
integer step F keeps indices 0, F, 2F, ..., and a negative integer
step keeps indices n-1, n-1-F, ... counting down; the copy itself
always succeeds. -/
def downsample (lx ly : Nat) (image : Buf3) (factor : ℚ) : Except String Buf3 :=
  if factor.den ≠ 1 then Except.error "TypeError: slice step must be integer"
  else if factor.num = 0 then Except.error "ValueError: slice step cannot be zero"
  else if 0 < factor.num then
    Except.ok (fun i j c => image (factor.num.toNat * i) (factor.num.toNat * j) c)
  else
    Except.ok (fun i j c =>
      image (lx - 1 - factor.num.natAbs * i) (ly - 1 - factor.num.natAbs * j) c)

/-- C7 as stated is false: a negative integer factor does not fail; it
returns a reversed strided buffer, as numpy slicing with a negative
step does. -/
theorem C7_counterexample :
    ¬ (∀ (lx ly : Nat) (image : Buf3) (factor : ℚ),
        (factor ≤ 0 ∨ factor.den ≠ 1) →
        ∃ e, downsample lx ly image factor = Except.error e) := by
  intro hcl
  obtain ⟨e, he⟩ := hcl 1 1 (fun _ _ _ => 0) (-1) (Or.inl (by norm_num))
  revert he
  unfold downsample
  rw [if_neg (show ¬((-1 : ℚ).den ≠ 1) by decide),
    if_neg (show ¬((-1 : ℚ).num = 0) by decide),
    if_neg (show ¬(0 < (-1 : ℚ).num) by decide)]
  simp

/-- C7 amended: a zero factor or a non integer factor fails (the
slicing raises) and never returns a buffer; a negative integer factor
instead returns a buffer (reversed and strided). -/
theorem C7_amended (lx ly : Nat) (image : Buf3) (factor : ℚ) :
    ((factor = 0 ∨ factor.den ≠ 1) →
      ∃ e, downsample lx ly image factor = Except.error e) ∧
    (factor.den = 1 → factor ≠ 0 →
      ∃ b, downsample lx ly image factor = Except.ok b) := by
  constructor
  · intro h
    unfold downsample
    by_cases hden : factor.den ≠ 1
    · rw [if_pos hden]
      exact ⟨_, rfl⟩
    · rw [if_neg hden]
      have hf0 : factor = 0 := by tauto
      have hnum : factor.num = 0 := Rat.num_eq_zero.mpr hf0
      rw [if_pos hnum]
      exact ⟨_, rfl⟩
  · intro hden hne
    unfold downsample
    rw [if_neg (show ¬(factor.den ≠ 1) from fun hc => hc hden)]
    have hnum : factor.num ≠ 0 := fun h0 => hne (Rat.num_eq_zero.mp h0)
    rw [if_neg hnum]
    by_cases hpos : 0 < factor.num
    · rw [if_pos hpos]
      exact ⟨_, rfl⟩
    · rw [if_neg hpos]
      exact ⟨_, rfl⟩

/-- Closed instance of the amended C7 at factor 0. -/
theorem C7_amended_witness :
    ∃ e, downsample 1 1 exGrey 0 = Except.error e :=
  (C7_amended 1 1 exGrey 0).1 (Or.inl rfl)

end RasterConverter
